import Mathlib

/-!
Verification development for the agentic document-exploration engine:
a shallow embedding of the chunking/summarization pipeline, the four
exploration tools, the controller's event loop and history truncation,
and the benchmark's numeric comparator, together with theorems settling
the specified behavioural properties.

Texts are modelled as `List Char` (a JS string), character positions as
`Nat` or `Int` exactly as the source uses them, and fallible operations
return `Option`/`Except`.  External generation calls are modelled as
explicit oracle parameters.
-/

namespace AgenticReader

/-! ## Chunker (src/reader/htmlToMarkdownTree.ts, htmlToMarkdownChunks)

The source first converts HTML to markdown with an external library and
then chunks the markdown text; the chunking itself is pure and is what
is embedded here, operating directly on the markdown text. -/

/-- Chunk record produced by the chunker: `content`, `chunkIndex`,
`startChar`, `endChar`, `totalChunks`. -/
structure MarkdownChunk where
  content : List Char
  chunkIndex : Nat
  startChar : Nat
  endChar : Nat
  totalChunks : Nat
deriving DecidableEq, Repr

/-- The chunking `for` loop of `htmlToMarkdownChunks`.  Each iteration with
`i < markdown.length` pushes the chunk `[i, min (i+chunkSize) length)` and
breaks once `endChar` reaches the text length; otherwise it advances `i` by
`stepSize`.  The loop is embedded with explicit fuel: `none` means the fuel
bound was exhausted, and a result of `none` for every fuel witnesses that
the source loop does not terminate. -/
def chunkLoop (markdown : List Char) (chunkSize stepSize : Nat) :
    Nat → Nat → Nat → Option (List MarkdownChunk)
  | 0, _, _ => none
  | fuel + 1, i, idx =>
    if i < markdown.length then
      let e := min (i + chunkSize) markdown.length
      let c : MarkdownChunk := ⟨(markdown.drop i).take (e - i), idx, i, e, 0⟩
      if markdown.length ≤ e then some [c]
      else (chunkLoop markdown chunkSize stepSize fuel (i + stepSize) (idx + 1)).map
        (fun cs => c :: cs)
    else some []

/-- The function `htmlToMarkdownChunks` applied to the markdown text: a single chunk when
`text.length ≤ chunkSize`, otherwise the overlap loop with
`stepSize = chunkSize - overlap`, followed by patching `totalChunks` on every
chunk.  The fuel `markdown.length + 1` suffices whenever the step is
positive; `none` models the infinite loop reached when it is not. -/
def htmlToMarkdownChunks (markdown : List Char) (chunkSize overlap : Nat) :
    Option (List MarkdownChunk) :=
  if markdown.length ≤ chunkSize then
    some [⟨markdown, 0, 0, markdown.length, 1⟩]
  else
    let stepSize := chunkSize - overlap
    match chunkLoop markdown chunkSize stepSize (markdown.length + 1) 0 0 with
    | none => none
    | some cs =>
      some (cs.map (fun c => ⟨c.content, c.chunkIndex, c.startChar, c.endChar, cs.length⟩))

/-- Position `p` is covered by some chunk's span `[startChar, endChar)`. -/
def coveredBy (chunks : List MarkdownChunk) (p : Nat) : Prop :=
  ∃ c ∈ chunks, c.startChar ≤ p ∧ p < c.endChar

/-- Specification predicate for the chunker on a given input: the chunking
succeeds, the chunk spans cover `[0, length)`, consecutive chunks overlap by
exactly `overlap` characters, every chunk's `totalChunks` equals the number
of chunks returned, and a text no longer than `chunkSize` yields exactly one
chunk spanning the whole text. -/
def chunkingOK (markdown : List Char) (chunkSize overlap : Nat) : Prop :=
  ∃ chunks, htmlToMarkdownChunks markdown chunkSize overlap = some chunks ∧
    (∀ p, p < markdown.length → coveredBy chunks p) ∧
    List.Chain' (fun a b => a.endChar = b.startChar + overlap) chunks ∧
    (∀ c ∈ chunks, c.totalChunks = chunks.length) ∧
    (markdown.length ≤ chunkSize → chunks = [⟨markdown, 0, 0, markdown.length, 1⟩])

/-- One-step unfolding of `chunkLoop` at positive fuel. -/
theorem chunkLoop_succ (markdown : List Char) (chunkSize stepSize fuel i idx : Nat) :
    chunkLoop markdown chunkSize stepSize (fuel + 1) i idx =
      if i < markdown.length then
        if markdown.length ≤ min (i + chunkSize) markdown.length then
          some [⟨(markdown.drop i).take (min (i + chunkSize) markdown.length - i), idx, i,
            min (i + chunkSize) markdown.length, 0⟩]
        else
          (chunkLoop markdown chunkSize stepSize fuel (i + stepSize) (idx + 1)).map
            (fun cs => ⟨(markdown.drop i).take (min (i + chunkSize) markdown.length - i),
              idx, i, min (i + chunkSize) markdown.length, 0⟩ :: cs)
      else some [] := rfl

/-- With a positive step the chunk loop terminates within `remaining + 1`
iterations, where `remaining` bounds the distance from `i` to the end. -/
theorem chunkLoop_total (markdown : List Char) (chunkSize stepSize : Nat)
    (hs : 1 ≤ stepSize) :
    ∀ fuel i idx, markdown.length ≤ i + fuel →
      (chunkLoop markdown chunkSize stepSize (fuel + 1) i idx).isSome = true := by
  intro fuel
  induction fuel with
  | zero =>
    intro i idx h
    have hni : ¬ i < markdown.length := by omega
    rw [chunkLoop_succ]
    simp [hni]
  | succ n ih =>
    intro i idx h
    rw [chunkLoop_succ]
    by_cases hi : i < markdown.length
    · by_cases he : markdown.length ≤ min (i + chunkSize) markdown.length
      · simp [hi, he]
      · have hrec := ih (i + stepSize) (idx + 1) (by omega)
        simp only [hi, if_true, he, if_false]
        cases hcl : chunkLoop markdown chunkSize stepSize (n + 1) (i + stepSize) (idx + 1) with
        | none => rw [hcl] at hrec; simp at hrec
        | some cs => simp
    · simp [hi]

/-- Structure of a successful chunk-loop run: the first chunk starts at the
current offset and ends at `min (i + chunkSize) length`, consecutive chunks
overlap by exactly `overlap` characters, and the produced chunks cover every
position from the current offset to the end of the text. -/
theorem chunkLoop_spec (markdown : List Char) (chunkSize stepSize overlap : Nat)
    (hsum : stepSize + overlap = chunkSize) :
    ∀ fuel i idx cs, chunkLoop markdown chunkSize stepSize fuel i idx = some cs →
      (i < markdown.length → ∃ c cs', cs = c :: cs' ∧ c.startChar = i ∧
          c.endChar = min (i + chunkSize) markdown.length) ∧
      List.Chain' (fun a b => a.endChar = b.startChar + overlap) cs ∧
      (∀ p, i ≤ p → p < markdown.length → ∃ c ∈ cs, c.startChar ≤ p ∧ p < c.endChar) := by
  intro fuel
  induction fuel with
  | zero => intro i idx cs hcs; simp [chunkLoop] at hcs
  | succ n ih =>
    intro i idx cs hcs
    rw [chunkLoop_succ] at hcs
    by_cases hi : i < markdown.length
    · by_cases he : markdown.length ≤ min (i + chunkSize) markdown.length
      · simp only [hi, if_true, he, Option.some.injEq] at hcs
        subst hcs
        refine ⟨fun _ => ⟨_, [], rfl, rfl, rfl⟩, List.chain'_singleton _, ?_⟩
        intro p hip hpl
        refine ⟨_, List.mem_singleton.mpr rfl, hip, ?_⟩
        show p < min (i + chunkSize) markdown.length
        omega
      · simp only [hi, if_true, he, if_false, Option.map_eq_some'] at hcs
        obtain ⟨cs', hrec, hcs⟩ := hcs
        subst hcs
        obtain ⟨ihhead, ihchain, ihcover⟩ := ih (i + stepSize) (idx + 1) cs' hrec
        have hltL : min (i + chunkSize) markdown.length < markdown.length := by omega
        have hemin : min (i + chunkSize) markdown.length = i + chunkSize := by
          rcases Nat.le_total (i + chunkSize) markdown.length with hm | hm
          · exact min_eq_left hm
          · rw [min_eq_right hm] at hltL; omega
        have hnext : i + stepSize < markdown.length := by omega
        refine ⟨fun _ => ⟨_, cs', rfl, rfl, rfl⟩, ?_, ?_⟩
        · obtain ⟨c', cs'', hcs', hstart, _⟩ := ihhead hnext
          subst hcs'
          refine List.Chain'.cons ?_ ihchain
          show min (i + chunkSize) markdown.length = c'.startChar + overlap
          rw [hemin, hstart]
          omega
        · intro p hip hpl
          by_cases hpe : p < min (i + chunkSize) markdown.length
          · exact ⟨_, List.mem_cons_self _ _, hip, hpe⟩
          · obtain ⟨c, hc, hc1, hc2⟩ := ihcover p (by omega) hpl
            exact ⟨c, List.mem_cons_of_mem _ hc, hc1, hc2⟩
    · simp only [hi, if_false, Option.some.injEq] at hcs
      subst hcs
      exact ⟨fun h => absurd h hi, List.chain'_nil, fun p hip hpl => absurd (by omega) hi⟩

/-- Claim C3: for every text and every `chunkSize`/`overlap` with
`overlap < chunkSize`, the chunker succeeds, its spans cover `[0, length)`,
consecutive chunks overlap by exactly `overlap` (`chunkSize` minus the step),
every chunk's `totalChunks` equals the number of returned chunks, and a text
no longer than `chunkSize` yields exactly one chunk spanning the whole text. -/
theorem htmlToMarkdownChunks_coverage (markdown : List Char) (chunkSize overlap : Nat)
    (h : overlap < chunkSize) : chunkingOK markdown chunkSize overlap := by
  by_cases hlen : markdown.length ≤ chunkSize
  · refine ⟨[⟨markdown, 0, 0, markdown.length, 1⟩], ?_, ?_, ?_, ?_, fun _ => rfl⟩
    · simp [htmlToMarkdownChunks, hlen]
    · intro p hp
      exact ⟨_, List.mem_singleton.mpr rfl, Nat.zero_le _, hp⟩
    · exact List.chain'_singleton _
    · intro c hc
      simp only [List.mem_singleton] at hc
      subst hc; rfl
  · have hs1 : 1 ≤ chunkSize - overlap := by omega
    have hsum : (chunkSize - overlap) + overlap = chunkSize := by omega
    have htot := chunkLoop_total markdown chunkSize (chunkSize - overlap) hs1
      markdown.length 0 0 (by omega)
    obtain ⟨cs, hcs⟩ := Option.isSome_iff_exists.mp htot
    obtain ⟨_, hchain, hcover⟩ :=
      chunkLoop_spec markdown chunkSize (chunkSize - overlap) overlap hsum
        (markdown.length + 1) 0 0 cs hcs
    refine ⟨cs.map (fun c => ⟨c.content, c.chunkIndex, c.startChar, c.endChar, cs.length⟩),
      ?_, ?_, ?_, ?_, fun hle => absurd hle hlen⟩
    · simp only [htmlToMarkdownChunks, hlen, if_false]
      rw [hcs]
    · intro p hp
      obtain ⟨c, hc, hc1, hc2⟩ := hcover p (Nat.zero_le _) hp
      exact ⟨_, List.mem_map_of_mem _ hc, hc1, hc2⟩
    · exact (List.chain'_map _).mpr hchain
    · intro c hc
      obtain ⟨a, _, ha⟩ := List.mem_map.mp hc
      subst ha
      simp

/-- Claim C1 (code bug): the chunker performs no `chunkSize > overlap`
validation.  On the text `"abc"` with `chunkSize = 2 = overlap` the step size
is `0`, the window never advances, and the source `for` loop runs forever:
the embedded loop returns `none` for every fuel bound, so the chunking
operation never fails fast with a configuration error — it does not
terminate at all. -/
theorem htmlToMarkdownChunks_no_config_check :
    (∀ fuel idx, chunkLoop ['a', 'b', 'c'] 2 0 fuel 0 idx = none) ∧
    htmlToMarkdownChunks ['a', 'b', 'c'] 2 2 = none := by
  have hloop : ∀ fuel idx, chunkLoop ['a', 'b', 'c'] 2 0 fuel 0 idx = none := by
    intro fuel
    induction fuel with
    | zero => intro idx; rfl
    | succ n ih => intro idx; simp [chunkLoop, ih]
  refine ⟨hloop, ?_⟩
  simp only [htmlToMarkdownChunks]
  norm_num
  rw [hloop 4 0]

/-! ## ReadSpan tool (src/reader/htmlToMarkdownTree.ts, readContent)

`readContent` validates the two positions against the document and either
returns a structured failure object `{success: false, error}` or the
substring with its metadata.  Positions are `Int` because the tool accepts
negative inputs (e.g. `ReadSpan(-1, 10)`). -/

/-- Metadata returned by a successful `readContent` call. -/
structure ReadMetadata where
  startPosition : Int
  endPosition : Int
  contentLength : Nat
  totalDocumentLength : Nat
  hasMoreBefore : Bool
  hasMoreAfter : Bool
deriving DecidableEq, Repr

/-- Result of a `readContent` call: a structured failure carrying an error
message, or the extracted content with metadata. -/
inductive ReadContentResult where
  | err (error : String)
  | ok (content : List Char) (metadata : ReadMetadata)
deriving DecidableEq, Repr

/-- The error message of a failed call, if any. -/
def ReadContentResult.errorMsg : ReadContentResult → Option String
  | .err m => some m
  | .ok _ _ => none

/-- The `readContent` tool: validates `startPosition`, then `endPosition`,
then `startPosition < endPosition`, and on success slices
`[startPosition, endPosition)` out of the document, reporting whether more
content exists before and after the span. -/
def readContent (fullContent : List Char) (startPosition endPosition : Int) :
    ReadContentResult :=
  let len := fullContent.length
  if startPosition < 0 ∨ startPosition > (len : Int) then
    .err ("Invalid startPosition " ++ toString startPosition ++
      ". Document length is " ++ toString len ++ " characters.")
  else if endPosition < 0 ∨ endPosition > (len : Int) then
    .err ("Invalid endPosition " ++ toString endPosition ++
      ". Document length is " ++ toString len ++ " characters.")
  else if startPosition ≥ endPosition then
    .err ("startPosition (" ++ toString startPosition ++
      ") must be less than endPosition (" ++ toString endPosition ++ ").")
  else
    let content := (fullContent.drop startPosition.toNat).take
      (endPosition.toNat - startPosition.toNat)
    .ok content
      ⟨startPosition, endPosition, content.length, len,
        decide (startPosition > 0), decide (endPosition < (len : Int))⟩

/-- Whether `sub` occurs as a contiguous substring of `hay`. -/
def containsSub : List Char → List Char → Bool
  | [], sub => sub.isEmpty
  | h :: t, sub => sub.isPrefixOf (h :: t) || containsSub t sub

/-- The message `m` mentions the text `s` (as a substring). -/
def mentions (m : String) (s : String) : Prop :=
  containsSub m.data s.data = true

/-- Specification predicate for `readContent` on one input, as corrected
against the source: out-of-range failures mention the document length,
the `start ≥ end` failure mentions both offending positions (but not the
document length), and a valid span is returned verbatim with its
`hasMoreBefore` / `hasMoreAfter` flags. -/
def readSpanOK (doc : List Char) (s e : Int) : Prop :=
  ((s < 0 ∨ s > (doc.length : Int)) →
    ∃ m, readContent doc s e = .err m ∧ mentions m (toString doc.length)) ∧
  (0 ≤ s → s ≤ (doc.length : Int) → (e < 0 ∨ e > (doc.length : Int)) →
    ∃ m, readContent doc s e = .err m ∧ mentions m (toString doc.length)) ∧
  (0 ≤ s → s ≤ (doc.length : Int) → 0 ≤ e → e ≤ (doc.length : Int) → s ≥ e →
    ∃ m, readContent doc s e = .err m ∧ mentions m (toString s) ∧
      mentions m (toString e)) ∧
  (0 ≤ s → 0 ≤ e → e ≤ (doc.length : Int) → s < e →
    ∃ md, readContent doc s e =
        .ok ((doc.drop s.toNat).take (e.toNat - s.toNat)) md ∧
      (md.hasMoreBefore = true ↔ 0 < s) ∧
      (md.hasMoreAfter = true ↔ e < (doc.length : Int)) ∧
      md.totalDocumentLength = doc.length) ∧
  (s = 0 → e = (doc.length : Int) → 0 < doc.length →
    ∃ md, readContent doc s e = .ok doc md ∧
      md.hasMoreBefore = false ∧ md.hasMoreAfter = false)

theorem isPrefixOf_append_self (l t : List Char) : l.isPrefixOf (l ++ t) = true := by
  induction l with
  | nil => simp [List.isPrefixOf]
  | cons a as ih => simp [List.isPrefixOf, ih]

theorem containsSub_nil (l : List Char) : containsSub l [] = true := by
  cases l with
  | nil => rfl
  | cons a as => simp [containsSub, List.isPrefixOf]

theorem containsSub_of_isPrefixOf (hay sub : List Char) (h : sub.isPrefixOf hay = true) :
    containsSub hay sub = true := by
  cases hay with
  | nil =>
    cases sub with
    | nil => rfl
    | cons s ss => simp [List.isPrefixOf] at h
  | cons a as => simp [containsSub, h]

theorem containsSub_append_left (pre hay sub : List Char)
    (h : containsSub hay sub = true) : containsSub (pre ++ hay) sub = true := by
  induction pre with
  | nil => simpa using h
  | cons a as ih => simp [containsSub, ih]

/-- Claim C4 (counterexample to the original claim): on a 7-character
document, `ReadSpan(5, 5)` fails with the message
`"startPosition (5) must be less than endPosition (5)."`, which does not
carry the document length `7` — so not every validation failure's message
carries the document length. -/
theorem readContent_cex_no_length_in_message :
    (readContent ['a', 'b', 'c', 'd', 'e', 'f', 'g'] 5 5).errorMsg.map
      (fun m => containsSub m.data (toString (7 : Nat)).data) = some false := by
  rfl

/-- Claim C4 (amended): invalid positions produce a structured failure, not
an exception; an out-of-range `startPosition` or `endPosition` yields an
error message mentioning the document length, `start ≥ end` yields an error
message mentioning both positions (but not necessarily the document length),
and a valid span returns the substring `[start, end)` with
`hasMoreBefore ↔ start > 0` and `hasMoreAfter ↔ end < length`; in
particular `ReadSpan(0, L)` on a nonempty document returns the entire
content with both flags false. -/
theorem readContent_spec (doc : List Char) (s e : Int) : readSpanOK doc s e := by
  have hmention : ∀ (pre post key : List Char),
      containsSub (pre ++ (key ++ post)) key = true :=
    fun pre post key => containsSub_append_left pre _ _
      (containsSub_of_isPrefixOf _ _ (isPrefixOf_append_self key post))
  refine ⟨?_, ?_, ?_, ?_, ?_⟩
  · intro h
    refine ⟨"Invalid startPosition " ++ toString s ++ ". Document length is " ++
      toString doc.length ++ " characters.", ?_, ?_⟩
    · simp [readContent, h]
    · simp only [mentions, String.data_append, List.append_assoc]
      exact containsSub_append_left _ _ _ (containsSub_append_left _ _ _ (hmention _ _ _))
  · intro h0 hl h
    have hc1 : ¬ (s < 0 ∨ s > (doc.length : Int)) := by omega
    refine ⟨"Invalid endPosition " ++ toString e ++ ". Document length is " ++
      toString doc.length ++ " characters.", ?_, ?_⟩
    · simp [readContent, hc1, h]
    · simp only [mentions, String.data_append, List.append_assoc]
      exact containsSub_append_left _ _ _ (containsSub_append_left _ _ _ (hmention _ _ _))
  · intro h0s hls h0e hle hse
    have hc1 : ¬ (s < 0 ∨ s > (doc.length : Int)) := by omega
    have hc2 : ¬ (e < 0 ∨ e > (doc.length : Int)) := by omega
    refine ⟨"startPosition (" ++ toString s ++ ") must be less than endPosition (" ++
      toString e ++ ").", ?_, ?_, ?_⟩
    · simp [readContent, hc1, hc2, hse]
    · simp only [mentions, String.data_append, List.append_assoc]
      exact hmention _ _ _
    · simp only [mentions, String.data_append, List.append_assoc]
      exact containsSub_append_left _ _ _ (containsSub_append_left _ _ _ (hmention _ _ _))
  · intro h0s h0e hle hse
    have hc1 : ¬ (s < 0 ∨ s > (doc.length : Int)) := by omega
    have hc2 : ¬ (e < 0 ∨ e > (doc.length : Int)) := by omega
    have hc3 : ¬ s ≥ e := by omega
    refine ⟨⟨s, e, ((doc.drop s.toNat).take (e.toNat - s.toNat)).length, doc.length,
      decide (s > 0), decide (e < (doc.length : Int))⟩, ?_, ?_, ?_, ?_⟩
    · simp [readContent, hc1, hc2, hc3]
    · simp only [decide_eq_true_eq]
    · simp only [decide_eq_true_eq]
    · rfl
  · intro hs he hpos
    subst hs
    subst he
    have hnneg : ¬ ((doc.length : Int) < 0) := by omega
    have hc3 : ¬ (0 : Int) ≥ (doc.length : Int) := by omega
    refine ⟨⟨0, (doc.length : Int),
      ((doc.drop (0 : Int).toNat).take ((doc.length : Int).toNat - (0 : Int).toNat)).length,
      doc.length, decide ((0 : Int) > 0),
      decide ((doc.length : Int) < (doc.length : Int))⟩, ?_, ?_, ?_⟩
    · simp [readContent, hnneg, hc3]
    · simp
    · simp

/-- Claim C4 (witness): the amended specification instantiated on the
concrete 7-character document. -/
theorem readContent_spec_witness : readSpanOK ['a', 'b', 'c', 'd', 'e', 'f', 'g'] 0 7 :=
  readContent_spec ['a', 'b', 'c', 'd', 'e', 'f', 'g'] 0 7

/-! ## SearchText tool (src/reader/htmlToMarkdownTree.ts, searchContent)

Case-insensitive literal search: the loop repeatedly calls
`indexOf(searchLower, currentPos)` on the lowercased document, collects up
to `maxResults` matches with an ellipsis-wrapped 50-character-radius
context, and resumes each scan at the previous match's end. -/

/-- Lowercasing of a JS string, character by character. -/
def toLowerList (l : List Char) : List Char := l.map Char.toLower

/-- Linear `indexOf` scan: try positions `pos, pos+1, ...` (at most `fuel` of them)
for an occurrence of `needle`. -/
def indexOfGo (hay needle : List Char) : Nat → Nat → Option Nat
  | 0, _ => none
  | fuel + 1, pos =>
    if needle.isPrefixOf (hay.drop pos) then some pos
    else indexOfGo hay needle fuel (pos + 1)

/-- JS `hay.indexOf(needle, start)`: the first position `≥ start` where
`needle` occurs, if any.  Positions `start, ..., hay.length` are scanned. -/
def indexOfFrom (hay needle : List Char) (start : Nat) : Option Nat :=
  indexOfGo hay needle (hay.length + 1 - start) start

/-- One search match: `{position, context}`. -/
structure SearchMatch where
  position : Nat
  context : List Char
deriving DecidableEq, Repr

/-- Result of a `searchContent` call. -/
structure SearchResult where
  success : Bool
  searchText : List Char
  resultsFound : Nat
  results : List SearchMatch
  hasMore : Bool
deriving DecidableEq, Repr

/-- The context slice around a match: 50 characters before the match start
(clamped at 0) up to 50 characters past the match end (clamped at the
document length). -/
def contextWindow (content searchText : List Char) (pos : Nat) : List Char :=
  let contextStart := pos - 50
  let contextEnd := min content.length (pos + searchText.length + 50)
  (content.drop contextStart).take (contextEnd - contextStart)

/-- The search `while` loop.  `remaining` is `maxResults` minus the number of
collected results; every iteration either stops or collects one match, so the
loop is structural in `remaining`.  Returns the collected matches and the
final `currentPos`. -/
def searchGo (content searchText : List Char) :
    Nat → Nat → List SearchMatch → (List SearchMatch × Nat)
  | 0, currentPos, acc => (acc, currentPos)
  | remaining + 1, currentPos, acc =>
    if currentPos < content.length then
      match indexOfFrom (toLowerList content) (toLowerList searchText) currentPos with
      | none => (acc, currentPos)
      | some foundPos =>
        searchGo content searchText remaining (foundPos + searchText.length)
          (acc ++ [⟨foundPos,
            ("...".data) ++ contextWindow content searchText foundPos ++ ("...".data)⟩])
    else (acc, currentPos)

/-- The `searchContent` tool. -/
def searchContent (fullContent searchText : List Char) (maxResults : Nat) : SearchResult :=
  let r := searchGo fullContent searchText maxResults 0 []
  ⟨true, searchText, r.1.length, r.1,
    decide (r.2 < fullContent.length) &&
      (indexOfFrom (toLowerList fullContent) (toLowerList searchText) r.2).isSome⟩

/-- A case-insensitive occurrence of `searchText` at position `p` of the
document. -/
def occursAt (content searchText : List Char) (p : Nat) : Prop :=
  (toLowerList searchText).isPrefixOf ((toLowerList content).drop p) = true

/-- The resumption point after the returned matches: one past the end of the
last match, or `0` when no match was returned. -/
def lastEnd (searchText : List Char) (results : List SearchMatch) : Nat :=
  match results.getLast? with
  | some m => m.position + searchText.length
  | none => 0

/-- Specification predicate for `searchContent` on one input: at most
`maxResults` matches, consecutive matches separated by at least the search
text's length (so matches are strictly ascending and non-overlapping), every
returned position is a real case-insensitive occurrence, and `hasMore` holds
exactly when a further occurrence exists at or beyond the resumption point. -/
def searchOK (content searchText : List Char) (maxResults : Nat) : Prop :=
  (searchContent content searchText maxResults).results.length ≤ maxResults ∧
  List.Chain' (fun a b => a.position + searchText.length ≤ b.position)
    (searchContent content searchText maxResults).results ∧
  (∀ m ∈ (searchContent content searchText maxResults).results,
    occursAt content searchText m.position) ∧
  ((searchContent content searchText maxResults).hasMore = true ↔
    ∃ p, lastEnd searchText (searchContent content searchText maxResults).results ≤ p ∧
      occursAt content searchText p)

/-- Specification predicate for the (corrected) context shape: every
returned context is the window from 50 characters before the match to 50
characters after its end — clamped at the document boundaries — wrapped in
ellipsis markers; away from the boundaries that window is
`searchText.length + 100` characters wide, not 100. -/
def contextOK (content searchText : List Char) (maxResults : Nat) : Prop :=
  (∀ m ∈ (searchContent content searchText maxResults).results,
    m.context = ("...".data) ++ contextWindow content searchText m.position ++ ("...".data)) ∧
  (∀ pos, 50 ≤ pos → pos + searchText.length + 50 ≤ content.length →
    (contextWindow content searchText pos).length = searchText.length + 100)

theorem indexOfGo_some (hay needle : List Char) :
    ∀ fuel pos p, indexOfGo hay needle fuel pos = some p →
      pos ≤ p ∧ needle.isPrefixOf (hay.drop p) = true := by
  intro fuel
  induction fuel with
  | zero => intro pos p h; simp [indexOfGo] at h
  | succ n ih =>
    intro pos p h
    by_cases hp : needle.isPrefixOf (hay.drop pos) = true
    · simp only [indexOfGo, hp, if_true, Option.some.injEq] at h
      subst h
      exact ⟨Nat.le_refl _, hp⟩
    · simp only [indexOfGo, hp, if_false] at h
      obtain ⟨h1, h2⟩ := ih (pos + 1) p h
      exact ⟨by omega, h2⟩

theorem indexOfGo_none (hay needle : List Char) :
    ∀ fuel pos, indexOfGo hay needle fuel pos = none →
      ∀ q, pos ≤ q → q < pos + fuel → needle.isPrefixOf (hay.drop q) = false := by
  intro fuel
  induction fuel with
  | zero => intro pos _ q _ hq; omega
  | succ n ih =>
    intro pos h q hq1 hq2
    by_cases hp : needle.isPrefixOf (hay.drop pos) = true
    · simp [indexOfGo, hp] at h
    · simp only [indexOfGo, hp, if_false] at h
      rcases Nat.eq_or_lt_of_le hq1 with heq | hlt
      · subst heq
        exact Bool.not_eq_true _ ▸ eq_false_of_ne_true hp
      · exact ih (pos + 1) h q hlt (by omega)

theorem indexOfFrom_some (hay needle : List Char) (start p : Nat)
    (h : indexOfFrom hay needle start = some p) :
    start ≤ p ∧ needle.isPrefixOf (hay.drop p) = true :=
  indexOfGo_some hay needle _ start p h

theorem indexOfFrom_none (hay needle : List Char) (start : Nat) (hne : needle ≠ [])
    (h : indexOfFrom hay needle start = none) :
    ∀ p, start ≤ p → needle.isPrefixOf (hay.drop p) = false := by
  intro p hp
  by_cases hpl : p < start + (hay.length + 1 - start)
  · exact indexOfGo_none hay needle _ start h p hp hpl
  · rw [List.drop_eq_nil_of_le (by omega)]
    cases needle with
    | nil => exact absurd rfl hne
    | cons c cs => rfl

theorem indexOfFrom_isSome_iff (hay needle : List Char) (start : Nat) (hne : needle ≠ []) :
    (indexOfFrom hay needle start).isSome = true ↔
      ∃ p, start ≤ p ∧ needle.isPrefixOf (hay.drop p) = true := by
  constructor
  · intro h
    obtain ⟨p, hp⟩ := Option.isSome_iff_exists.mp h
    obtain ⟨h1, h2⟩ := indexOfFrom_some hay needle start p hp
    exact ⟨p, h1, h2⟩
  · rintro ⟨p, hp1, hp2⟩
    cases hidx : indexOfFrom hay needle start with
    | some q => rfl
    | none =>
      rw [indexOfFrom_none hay needle start hne hidx p hp1] at hp2
      cases hp2

/-- Loop invariant of `searchGo`: starting from an accumulator whose matches
are chained, genuine, context-correct occurrences with the scan position at
the accumulator's resumption point, the loop adds at most `remaining`
matches and preserves all four properties, and its final position is the
resumption point of its result. -/
theorem searchGo_spec (content searchText : List Char) :
    ∀ remaining currentPos acc,
      List.Chain' (fun a b => a.position + searchText.length ≤ b.position) acc →
      currentPos = lastEnd searchText acc →
      (∀ m ∈ acc, occursAt content searchText m.position) →
      (∀ m ∈ acc, m.context =
        ("...".data) ++ contextWindow content searchText m.position ++ ("...".data)) →
      (searchGo content searchText remaining currentPos acc).1.length ≤
          acc.length + remaining ∧
      List.Chain' (fun a b => a.position + searchText.length ≤ b.position)
        (searchGo content searchText remaining currentPos acc).1 ∧
      (∀ m ∈ (searchGo content searchText remaining currentPos acc).1,
        occursAt content searchText m.position) ∧
      (∀ m ∈ (searchGo content searchText remaining currentPos acc).1,
        m.context =
          ("...".data) ++ contextWindow content searchText m.position ++ ("...".data)) ∧
      (searchGo content searchText remaining currentPos acc).2 =
        lastEnd searchText (searchGo content searchText remaining currentPos acc).1 := by
  intro remaining
  induction remaining with
  | zero =>
    intro pos acc h1 h2 h3 h4
    exact ⟨Nat.le_refl _, h1, h3, h4, h2⟩
  | succ n ih =>
    intro pos acc h1 h2 h3 h4
    by_cases hlt : pos < content.length
    · cases hidx : indexOfFrom (toLowerList content) (toLowerList searchText) pos with
      | none =>
        simp only [searchGo, hlt, if_true, hidx]
        exact ⟨by omega, h1, h3, h4, h2⟩
      | some foundPos =>
        obtain ⟨hfle, hfpre⟩ := indexOfFrom_some _ _ _ _ hidx
        simp only [searchGo, hlt, if_true, hidx]
        have hchain : List.Chain'
            (fun a b => a.position + searchText.length ≤ b.position)
            (acc ++ [⟨foundPos,
              ("...".data) ++ contextWindow content searchText foundPos ++ ("...".data)⟩]) := by
          refine List.chain'_append.mpr ⟨h1, List.chain'_singleton _, ?_⟩
          intro x hx y hy
          simp only [List.head?_cons, Option.mem_def, Option.some.injEq] at hy
          subst hy
          have hle : lastEnd searchText acc = x.position + searchText.length := by
            simp only [lastEnd, Option.mem_def.mp hx]
          show x.position + searchText.length ≤ foundPos
          omega
        have hlast : foundPos + searchText.length =
            lastEnd searchText (acc ++ [⟨foundPos,
              ("...".data) ++ contextWindow content searchText foundPos ++ ("...".data)⟩]) := by
          simp [lastEnd, List.getLast?_concat]
        have hocc : ∀ m ∈ (acc ++ [⟨foundPos,
            ("...".data) ++ contextWindow content searchText foundPos ++ ("...".data)⟩]),
            occursAt content searchText m.position := by
          intro m hm
          rcases List.mem_append.mp hm with h | h
          · exact h3 m h
          · simp only [List.mem_singleton] at h
            subst h
            exact hfpre
        have hctx : ∀ m ∈ (acc ++ [⟨foundPos,
            ("...".data) ++ contextWindow content searchText foundPos ++ ("...".data)⟩]),
            m.context =
              ("...".data) ++ contextWindow content searchText m.position ++ ("...".data) := by
          intro m hm
          rcases List.mem_append.mp hm with h | h
          · exact h4 m h
          · simp only [List.mem_singleton] at h
            subst h
            rfl
        obtain ⟨l1, l2, l3, l4, l5⟩ :=
          ih (foundPos + searchText.length) _ hchain hlast hocc hctx
        refine ⟨?_, l2, l3, l4, l5⟩
        simp only [List.length_append, List.length_singleton] at l1
        omega
    · simp only [searchGo, hlt, if_false]
      exact ⟨by omega, h1, h3, h4, h2⟩

/-- Claim C5: for a non-empty search text, `searchContent` returns at most
`maxResults` case-insensitive matches, consecutive matches are separated by
at least the search text's length (ascending, non-overlapping, each scan
resuming at the previous match's end), and `hasMore` is true exactly when a
further occurrence exists at or beyond the resumption point. -/
theorem searchContent_spec (content searchText : List Char) (maxResults : Nat)
    (hne : searchText ≠ []) : searchOK content searchText maxResults := by
  have hlne : toLowerList searchText ≠ [] := by
    cases searchText with
    | nil => exact absurd rfl hne
    | cons c cs => simp [toLowerList]
  obtain ⟨l1, l2, l3, _, l5⟩ := searchGo_spec content searchText maxResults 0 []
    List.chain'_nil rfl (by simp) (by simp)
  have hres : (searchContent content searchText maxResults).results =
      (searchGo content searchText maxResults 0 []).1 := rfl
  have hmore : (searchContent content searchText maxResults).hasMore =
      (decide ((searchGo content searchText maxResults 0 []).2 < content.length) &&
        (indexOfFrom (toLowerList content) (toLowerList searchText)
          (searchGo content searchText maxResults 0 []).2).isSome) := rfl
  refine ⟨?_, ?_, ?_, ?_⟩
  · rw [hres]
    simpa using l1
  · rw [hres]
    exact l2
  · rw [hres]
    exact l3
  · rw [hres, hmore, ← l5]
    constructor
    · intro h
      rw [Bool.and_eq_true] at h
      obtain ⟨p, hp⟩ := Option.isSome_iff_exists.mp h.2
      obtain ⟨hple, hppre⟩ := indexOfFrom_some _ _ _ _ hp
      exact ⟨p, hple, hppre⟩
    · rintro ⟨p, hple, hpocc⟩
      have hdp : (toLowerList content).drop p ≠ [] := by
        intro hnil
        simp only [occursAt, hnil] at hpocc
        cases htl : toLowerList searchText with
        | nil => exact absurd htl hlne
        | cons c cs => rw [htl] at hpocc; simp [List.isPrefixOf] at hpocc
      have hplen : p < content.length := by
        by_contra hge
        exact hdp (List.drop_eq_nil_of_le (by simp [toLowerList]; omega))
      rw [Bool.and_eq_true]
      constructor
      · simp only [decide_eq_true_eq]
        omega
      · exact (indexOfFrom_isSome_iff _ _ _ hlne).mpr ⟨p, hple, hpocc⟩

/-- Claim C5 (witness): the search specification instantiated on the
document `"abcab"` with search text `"ab"` and `maxResults = 1`. -/
theorem searchContent_spec_witness :
    (['a', 'b'] : List Char) ≠ [] ∧ searchOK ['a', 'b', 'c', 'a', 'b'] ['a', 'b'] 1 :=
  ⟨by decide, searchContent_spec ['a', 'b', 'c', 'a', 'b'] ['a', 'b'] 1 (by decide)⟩

/-- Claim C6 (amended): every returned context is the document slice from 50
characters before the match to 50 characters past its end, clamped at the
document boundaries and wrapped in ellipsis markers; away from the
boundaries the window is `searchText.length + 100` characters wide (not
100). -/
theorem searchContext_spec (content searchText : List Char) (maxResults : Nat) :
    contextOK content searchText maxResults := by
  obtain ⟨_, _, _, l4, _⟩ := searchGo_spec content searchText maxResults 0 []
    List.chain'_nil rfl (by simp) (by simp)
  refine ⟨?_, ?_⟩
  · intro m hm
    exact l4 m hm
  · intro pos h50 hfit
    have hce : min content.length (pos + searchText.length + 50) =
        pos + searchText.length + 50 := min_eq_right hfit
    simp only [contextWindow, List.length_take, List.length_drop, hce]
    rw [min_eq_left (by omega)]
    omega

/-- A 122-character document with a single `"ab"` at position 60, far from
both boundaries. -/
def sampleDoc : List Char :=
  List.replicate 60 'x' ++ ['a', 'b'] ++ List.replicate 60 'x'

set_option maxRecDepth 4000 in
/-- Claim C6 (counterexample to the original claim): searching `"ab"` in
`sampleDoc` yields one match whose context is 108 characters long —
a `2 + 100`-character window plus two 3-character ellipsis markers — not the
100-character-wide window (106 with markers) asserted by the claim. -/
theorem searchContext_cex :
    ((searchContent sampleDoc ['a', 'b'] 5).results.map (fun m => m.context.length)) =
      [108] ∧ (108 : Nat) ≠ 106 :=
  ⟨by decide, by decide⟩

/-- Claim C6 (witness): the amended context specification instantiated on
`sampleDoc`. -/
theorem searchContext_spec_witness : contextOK sampleDoc ['a', 'b'] 5 :=
  searchContext_spec sampleDoc ['a', 'b'] 5

/-- Claim C3 (witness): the chunker specification instantiated on a
12-character text with `chunkSize = 5`, `overlap = 1`. -/
theorem htmlToMarkdownChunks_coverage_witness :
    (1 : Nat) < 5 ∧
    chunkingOK ['a', 'b', 'c', 'd', 'e', 'f', 'g', 'h', 'i', 'j', 'k', 'l'] 5 1 :=
  ⟨by decide, htmlToMarkdownChunks_coverage
    ['a', 'b', 'c', 'd', 'e', 'f', 'g', 'h', 'i', 'j', 'k', 'l'] 5 1 (by decide)⟩

/-! ## Exploration Controller (src/reader/agenticReader.ts)

`agenticReaderWithEvents` runs one session inside a `try`: it emits three
status events, awaits the reasoning transport (`generateText`), and on
success emits `exploration_complete`, the `answer`, optionally `metadata`,
and `complete`; any transport exception is caught and produces a single
`error` event.  The embedding replaces the event sink with the emitted list
and the transport with an explicit `Except` outcome carrying the final text
and the step count; the sink itself is total (it cannot throw). -/

/-- Session counters (`SessionStats`). -/
structure SessionStats where
  tool_calls : Nat
  content_reads : Nat
  figure_analyses : Nat
  search_iterations : Nat
deriving DecidableEq, Repr

/-- Events emitted by one exploration session. -/
inductive Event where
  | status (stage message : String)
  | answer (text : String)
  | metadata (processing_time_ms : Nat) (stats : SessionStats)
  | complete (message : String)
  | error (message : String)
deriving DecidableEq, Repr

/-- The event sequence of one run of `agenticReaderWithEvents`. -/
def agenticReaderWithEvents (fullContentLength : Nat) (include_metadata : Bool)
    (processingTime : Nat) (stats : SessionStats)
    (transport : Except String (String × Nat)) : List Event :=
  let pre := [Event.status "starting" "Initializing agentic reader...",
    Event.status "document_loaded"
      ("Document loaded: " ++ toString fullContentLength ++ " characters"),
    Event.status "exploring" "Agent is exploring the document..."]
  match transport with
  | .error msg => pre ++ [Event.error msg]
  | .ok (text, steps) =>
    pre ++ [Event.status "exploration_complete"
        ("Agent completed exploration in " ++ toString steps ++ " steps"),
      Event.answer text] ++
      (if include_metadata then
        [Event.metadata processingTime
          ⟨stats.tool_calls, stats.content_reads, stats.figure_analyses, steps⟩]
      else []) ++
      [Event.complete "Agentic reading completed successfully"]

/-- Terminal events of a session: `answer` or `error`. -/
def isTerminalEvent : Event → Bool
  | .answer _ => true
  | .error _ => true
  | _ => false

/-- Claim C2: every session emits exactly one terminal event — one `answer`
on success or one `error` when the reasoning transport fails — never both,
never neither. -/
theorem agenticReader_one_terminal (fullContentLength : Nat) (include_metadata : Bool)
    (processingTime : Nat) (stats : SessionStats)
    (transport : Except String (String × Nat)) :
    (agenticReaderWithEvents fullContentLength include_metadata processingTime stats
      transport).countP isTerminalEvent = 1 := by
  cases transport with
  | error msg =>
    simp [agenticReaderWithEvents, isTerminalEvent, List.countP_cons, List.countP_append]
  | ok r =>
    obtain ⟨text, steps⟩ := r
    cases include_metadata <;>
      simp [agenticReaderWithEvents, isTerminalEvent, List.countP_cons, List.countP_append]

/-- The `prepareStep` history-truncation hook: with more than 20 accumulated
messages, keep the first message plus the most recent 20; otherwise return
no override (the history is passed unchanged). -/
def prepareStep {α : Type} (messages : List α) : Option (List α) :=
  if messages.length > 20 then
    some (messages.take 1 ++ messages.drop (messages.length - 20))
  else none

/-- Specification predicate for history truncation on one message list:
above 20 messages the override is exactly the first message followed by the
most recent 20 (21 total, the first message never dropped); at or below 20
messages no override is produced. -/
def truncationOK {α : Type} (messages : List α) : Prop :=
  (messages.length > 20 →
    ∃ kept, prepareStep messages = some kept ∧ kept.length = 21 ∧
      kept.take 1 = messages.take 1 ∧
      kept.drop 1 = messages.drop (messages.length - 20)) ∧
  (messages.length ≤ 20 → prepareStep messages = none)

/-- Claim C7: the truncation hook keeps the first message (the system
instruction) plus exactly the most recent 20 messages whenever the history
exceeds 20 messages, and leaves shorter histories unchanged. -/
theorem prepareStep_spec {α : Type} (messages : List α) : truncationOK messages := by
  constructor
  · intro h
    have htk : (messages.take 1).length = 1 := by
      rw [List.length_take]
      omega
    refine ⟨messages.take 1 ++ messages.drop (messages.length - 20), ?_, ?_, ?_, ?_⟩
    · simp [prepareStep, h]
    · rw [List.length_append, List.length_drop, htk]
      omega
    · rw [List.take_append_of_le_length (by omega), List.take_take]
      simp
    · rw [List.drop_append_of_le_length (by omega)]
      simp [List.drop_take]
  · intro h
    have hc : ¬ messages.length > 20 := by omega
    simp [prepareStep, hc]

/-- Claim C7 (witness): truncation instantiated on a 25-message history. -/
theorem prepareStep_spec_witness : truncationOK (List.range 25) :=
  prepareStep_spec (List.range 25)

/-! ## Summarizer (src/reader/htmlToMarkdownTree.ts, generateChunkSummaries)

The source starts `min(maxConcurrency, chunks.length)` workers over a shared
queue `chunks.map((chunk, index) => {chunk, index})`; each worker pops an
item, awaits one text-generation call, and writes the summary into the
pre-sized result slot `results[index]`.  The embedding abstracts the
concurrent execution by an explicit completion schedule `sched` — the order
in which queue items complete — required to be a permutation of the
canonical queue `chunks.enum`; any `maxConcurrency` yields some such
permutation.  The generation call is the oracle `gen`, addressed by queue
index; a rejected call rejects the whole operation (`Promise.all`). -/

/-- A chunk together with its generated summary. -/
structure MarkdownChunkWithSummary extends MarkdownChunk where
  summary : String
deriving DecidableEq, Repr

/-- The text produced by a successful generation call (unused on failure). -/
def genOut (gen : Nat → Except String String) (i : Nat) : String :=
  match gen i with
  | .ok s => s
  | .error _ => ""

/-- Whether a generation outcome is a success. -/
def exceptIsOk : Except String String → Bool
  | .ok _ => true
  | .error _ => false

/-- Processing of the queue items in completion order: each successful item
contributes the slot write `(index, chunk + summary)`; any failed item
rejects the whole pool. -/
def runPool (gen : Nat → Except String String) :
    List (Nat × MarkdownChunk) → Except String (List (Nat × MarkdownChunkWithSummary))
  | [] => .ok []
  | (i, c) :: rest =>
    match gen i with
    | .error e => .error e
    | .ok s =>
      match runPool gen rest with
      | .error e => .error e
      | .ok ws => .ok ((i, ⟨c, s⟩) :: ws)

/-- Reading the pre-sized result array back out: slot `i` holds the write
addressed by index `i`, if any. -/
def readout (n : Nat) (ws : List (Nat × MarkdownChunkWithSummary)) :
    List (Option MarkdownChunkWithSummary) :=
  (List.range n).map (fun i => (ws.find? (fun w => w.1 == i)).map (fun w => w.2))

/-- The summarizer `generateChunkSummaries` under completion schedule `sched`: the result
array read out slot by slot, or the first rejection. -/
def generateChunkSummaries (gen : Nat → Except String String)
    (chunks : List MarkdownChunk) (sched : List (Nat × MarkdownChunk)) :
    Except String (List (Option MarkdownChunkWithSummary)) :=
  (runPool gen sched).map (readout chunks.length)

theorem gen_eq_ok (gen : Nat → Except String String) (i : Nat)
    (h : exceptIsOk (gen i) = true) : gen i = .ok (genOut gen i) := by
  cases hx : gen i with
  | ok s => simp [genOut, hx]
  | error e => rw [hx] at h; simp [exceptIsOk] at h

theorem runPool_ok (gen : Nat → Except String String) :
    ∀ sched : List (Nat × MarkdownChunk),
      (∀ p ∈ sched, exceptIsOk (gen p.1) = true) →
      runPool gen sched =
        .ok (sched.map (fun p => (p.1, (⟨p.2, genOut gen p.1⟩ : MarkdownChunkWithSummary)))) := by
  intro sched
  induction sched with
  | nil => intro _; rfl
  | cons p rest ih =>
    intro h
    obtain ⟨i, c⟩ := p
    have hi := gen_eq_ok gen i (h (i, c) (List.mem_cons_self _ _))
    have hrest := ih (fun q hq => h q (List.mem_cons_of_mem _ hq))
    simp only [runPool, hi, hrest, List.map_cons]

theorem runPool_error (gen : Nat → Except String String) :
    ∀ (sched : List (Nat × MarkdownChunk)) (i : Nat) (c : MarkdownChunk) (e : String),
      (i, c) ∈ sched → gen i = .error e →
      ∃ msg, runPool gen sched = .error msg := by
  intro sched
  induction sched with
  | nil => intro i c e hm _; cases hm
  | cons p rest ih =>
    intro i c e hm herr
    rcases List.mem_cons.mp hm with heq | hmem
    · subst heq
      exact ⟨e, by simp [runPool, herr]⟩
    · obtain ⟨j, d⟩ := p
      cases hgj : gen j with
      | error e' => exact ⟨e', by simp [runPool, hgj]⟩
      | ok s =>
        obtain ⟨msg, hmsg⟩ := ih i c e hmem herr
        exact ⟨msg, by simp [runPool, hgj, hmsg]⟩

theorem find?_key_unique {β : Type} (i : Nat) (x : β) :
    ∀ l : List (Nat × β), (l.map Prod.fst).Nodup → (i, x) ∈ l →
      l.find? (fun w => w.1 == i) = some (i, x) := by
  intro l
  induction l with
  | nil => intro _ hm; cases hm
  | cons p t ih =>
    intro hnd hm
    rw [List.map_cons, List.nodup_cons] at hnd
    rcases List.mem_cons.mp hm with heq | hmem
    · subst heq
      exact List.find?_cons_of_pos _ (by simp)
    · by_cases hji : p.1 = i
      · exact absurd (hji ▸ List.mem_map_of_mem Prod.fst hmem) (hji ▸ hnd.1)
      · rw [List.find?_cons_of_neg _ (by simp [hji])]
        exact ih hnd.2 hmem

theorem readout_slot_lemma (gen : Nat → Except String String)
    (chunks : List MarkdownChunk) (sched : List (Nat × MarkdownChunk))
    (hperm : sched.Perm chunks.enum)
    (i : Nat) (c : MarkdownChunk) (hc : chunks.get? i = some c) :
    (sched.map (fun p => (p.1, (⟨p.2, genOut gen p.1⟩ : MarkdownChunkWithSummary)))).find?
      (fun w => w.1 == i) = some (i, ⟨c, genOut gen i⟩) := by
  apply find?_key_unique
  · have hmm : (sched.map (fun p =>
        (p.1, (⟨p.2, genOut gen p.1⟩ : MarkdownChunkWithSummary)))).map Prod.fst =
        sched.map Prod.fst := by
      simp [List.map_map, Function.comp]
    rw [hmm]
    have hkeys : List.Perm (sched.map Prod.fst) (chunks.enum.map Prod.fst) := hperm.map _
    rw [List.enum_map_fst] at hkeys
    exact hkeys.nodup_iff.mpr (List.nodup_range _)
  · have hmem : (i, c) ∈ chunks.enum := List.mem_enum_iff_get?.mpr hc
    exact List.mem_map_of_mem _ (hperm.mem_iff.mpr hmem)

/-- Specification predicate for the summarizer at a fixed generation oracle,
chunk list and two completion schedules: both schedules produce the same
outcome, the outcome is a full slot array (no partial results), slot `i`
holds chunk `i` enriched with the summary generated for index `i`, and —
whenever the chunks carry their position as `chunkIndex`, as the chunker
guarantees — the filled slots are strictly increasing in `chunkIndex`. -/
def summariesOK (gen : Nat → Except String String) (chunks : List MarkdownChunk)
    (sched₁ sched₂ : List (Nat × MarkdownChunk)) : Prop :=
  generateChunkSummaries gen chunks sched₁ = generateChunkSummaries gen chunks sched₂ ∧
  ∃ slots, generateChunkSummaries gen chunks sched₁ = .ok slots ∧
    slots.length = chunks.length ∧
    (∀ i c, chunks.get? i = some c → slots.get? i = some (some ⟨c, genOut gen i⟩)) ∧
    ((∀ k ck, chunks.get? k = some ck → ck.chunkIndex = k) →
      ∀ i j wi wj, i < j → slots.get? i = some (some wi) →
        slots.get? j = some (some wj) → wi.chunkIndex < wj.chunkIndex)

/-- Claim C9: when every generation call succeeds, the summarizer's result is
independent of the completion schedule (hence of `maxConcurrency`): each
summary is written into the slot addressed by its chunk's queue index, so the
returned sequence is in `chunkIndex` order regardless of completion order. -/
theorem generateChunkSummaries_order (gen : Nat → Except String String)
    (chunks : List MarkdownChunk) (sched₁ sched₂ : List (Nat × MarkdownChunk))
    (h₁ : sched₁.Perm chunks.enum) (h₂ : sched₂.Perm chunks.enum)
    (hok : ∀ p ∈ chunks.enum, exceptIsOk (gen p.1) = true) :
    summariesOK gen chunks sched₁ sched₂ := by
  have hr₁ := runPool_ok gen sched₁ (fun p hp => hok p (h₁.subset hp))
  have hr₂ := runPool_ok gen sched₂ (fun p hp => hok p (h₂.subset hp))
  have hget : ∀ (sched : List (Nat × MarkdownChunk)), sched.Perm chunks.enum →
      ∀ i c, chunks.get? i = some c →
      (readout chunks.length (sched.map (fun p =>
        (p.1, (⟨p.2, genOut gen p.1⟩ : MarkdownChunkWithSummary))))).get? i =
        some (some ⟨c, genOut gen i⟩) := by
    intro sched hperm i c hc
    obtain ⟨hi, -⟩ := List.get?_eq_some.mp hc
    unfold readout
    rw [List.get?_map, List.get?_range hi]
    simp only [Option.map_some']
    rw [readout_slot_lemma gen chunks sched hperm i c hc]
    rfl
  have hlen : ∀ ws, (readout chunks.length ws).length = chunks.length := by
    intro ws
    simp [readout]
  have hchoose : ∀ n, n < chunks.length → ∃ c, chunks.get? n = some c := by
    intro n hn
    cases hcn : chunks.get? n with
    | some c => exact ⟨c, rfl⟩
    | none =>
      rw [List.get?_eq_none] at hcn
      omega
  have hslots_eq : readout chunks.length (sched₁.map (fun p =>
      (p.1, (⟨p.2, genOut gen p.1⟩ : MarkdownChunkWithSummary)))) =
      readout chunks.length (sched₂.map (fun p =>
      (p.1, (⟨p.2, genOut gen p.1⟩ : MarkdownChunkWithSummary)))) := by
    apply List.ext_get?
    intro n
    by_cases hn : n < chunks.length
    · obtain ⟨c, hc⟩ := hchoose n hn
      rw [hget sched₁ h₁ n c hc, hget sched₂ h₂ n c hc]
    · rw [List.get?_eq_none.mpr (by rw [hlen]; omega),
        List.get?_eq_none.mpr (by rw [hlen]; omega)]
  refine ⟨?_, readout chunks.length (sched₁.map (fun p =>
      (p.1, (⟨p.2, genOut gen p.1⟩ : MarkdownChunkWithSummary)))), ?_, hlen _, ?_, ?_⟩
  · simp only [generateChunkSummaries, hr₁, hr₂, Except.map]
    rw [hslots_eq]
  · simp only [generateChunkSummaries, hr₁, Except.map]
  · intro i c hc
    exact hget sched₁ h₁ i c hc
  · intro hidx i j wi wj hij hgi hgj
    have hi : i < chunks.length := by
      obtain ⟨hlt, -⟩ := List.get?_eq_some.mp hgi
      rw [hlen] at hlt
      exact hlt
    have hj : j < chunks.length := by
      obtain ⟨hlt, -⟩ := List.get?_eq_some.mp hgj
      rw [hlen] at hlt
      exact hlt
    obtain ⟨ci, hci⟩ := hchoose i hi
    obtain ⟨cj, hcj⟩ := hchoose j hj
    have hwi : wi = ⟨ci, genOut gen i⟩ := by
      have := hget sched₁ h₁ i ci hci
      rw [hgi] at this
      simpa using this
    have hwj : wj = ⟨cj, genOut gen j⟩ := by
      have := hget sched₁ h₁ j cj hcj
      rw [hgj] at this
      simpa using this
    have hii := hidx i ci hci
    have hjj := hidx j cj hcj
    rw [hwi, hwj]
    show ci.chunkIndex < cj.chunkIndex
    omega

/-- Claim C8: if the generation call for any queue item fails, the whole
summarization fails — the outcome is a rejection carrying an error message,
and no slot array (not even a partial one) is ever returned. -/
theorem generateChunkSummaries_fatal (gen : Nat → Except String String)
    (chunks : List MarkdownChunk) (sched : List (Nat × MarkdownChunk))
    (i : Nat) (c : MarkdownChunk) (e : String)
    (hperm : sched.Perm chunks.enum) (hmem : (i, c) ∈ chunks.enum)
    (herr : gen i = .error e) :
    ∃ msg, generateChunkSummaries gen chunks sched = .error msg ∧
      ∀ slots, generateChunkSummaries gen chunks sched ≠ .ok slots := by
  obtain ⟨msg, hmsg⟩ := runPool_error gen sched i c e (hperm.mem_iff.mpr hmem) herr
  have heq : generateChunkSummaries gen chunks sched = .error msg := by
    simp only [generateChunkSummaries, hmsg, Except.map]
  exact ⟨msg, heq, fun slots h => by rw [heq] at h; cases h⟩

/-- Three concrete chunks (as produced by the chunker on a 3-character text
with `chunkSize = 1`, `overlap = 0`). -/
def chunksW : List MarkdownChunk :=
  [⟨['a'], 0, 0, 1, 3⟩, ⟨['b'], 1, 1, 2, 3⟩, ⟨['c'], 2, 2, 3, 3⟩]

/-- A generation oracle that fails on queue index 1. -/
def genFail : Nat → Except String String :=
  fun i => if i == 1 then .error "boom" else .ok "sum"

/-- An oracle that succeeds on every queue index. -/
def genAll : Nat → Except String String := fun i => .ok (toString i)

/-- Claim C8 (witness): the fatal-failure theorem instantiated on three
concrete chunks with the generation call for chunk 1 failing. -/
theorem generateChunkSummaries_fatal_witness :
    chunksW.enum.Perm chunksW.enum ∧ (1, (⟨['b'], 1, 1, 2, 3⟩ : MarkdownChunk)) ∈ chunksW.enum ∧
    genFail 1 = .error "boom" ∧
    ∃ msg, generateChunkSummaries genFail chunksW chunksW.enum = .error msg ∧
      ∀ slots, generateChunkSummaries genFail chunksW chunksW.enum ≠ .ok slots :=
  ⟨List.Perm.refl _, by decide, rfl,
    generateChunkSummaries_fatal genFail chunksW chunksW.enum 1 ⟨['b'], 1, 1, 2, 3⟩ "boom"
      (List.Perm.refl _) (by decide) rfl⟩

/-- Claim C9 (witness): schedule-independence instantiated on three concrete
chunks, comparing the sequential schedule with its reversal (the
`maxConcurrency = 1` completion order versus a fully reordered one). -/
theorem generateChunkSummaries_order_witness :
    summariesOK genAll chunksW chunksW.enum chunksW.enum.reverse :=
  generateChunkSummaries_order genAll chunksW chunksW.enum chunksW.enum.reverse
    (List.Perm.refl _) (List.reverse_perm _) (by decide)

/-! ## Benchmark comparator (compareNumerical)

The benchmark harness compares an extracted value string against a
ground-truth string: an empty ground truth matches immediately; otherwise
both strings are parsed as numbers and the values must agree within the
absolute tolerance or within 1% relative error.  `parseFloat` is modelled
as an oracle `parseNum` returning `none` for `NaN`; the error of the
relative test is taken over exact rationals, with the `gv ≠ 0` guard
mirroring IEEE division (a nonzero error divided by zero is infinite, and
`0/0` is `NaN`, so the relative test never succeeds when the reference is
zero but the absolute test fails). -/

/-- Result of `compareNumerical`: `{match, error}`. -/
structure CompareResult where
  match_ : Bool
  error : Option ℚ
deriving DecidableEq, Repr

/-- The comparator `compareNumerical(extracted, groundTruth, tolerance)`. -/
def compareNumerical (parseNum : String → Option ℚ) (extracted groundTruth : String)
    (tolerance : ℚ) : CompareResult :=
  if groundTruth = "" then ⟨true, none⟩
  else
    match parseNum extracted, parseNum groundTruth with
    | none, some _ => ⟨false, none⟩
    | some ev, some gv =>
      ⟨decide (|ev - gv| ≤ tolerance ∨ (gv ≠ 0 ∧ |(ev - gv) / gv| ≤ 1 / 100)),
        some (ev - gv)⟩
    | none, none => ⟨false, none⟩
    | some _, none => ⟨false, none⟩

/-- Claim C10: whenever the ground-truth string is empty, `compareNumerical`
returns `match = true`, no matter what was extracted and before any parsing
takes place. -/
theorem compareNumerical_empty_groundTruth (parseNum : String → Option ℚ)
    (extracted : String) (tolerance : ℚ) :
    (compareNumerical parseNum extracted "" tolerance).match_ = true := by
  simp [compareNumerical]

end AgenticReader
